import Mathlib

/-!
Verification of `greedy_algorithms/job_sequencing_algorithm.cpp`.

The C++ function under study is

  template <std::size_t N>
  std::vector<char> getJobScheduling(std::array<Job, N> &arr)

which sorts the caller's array in place by ascending deadline, walks the
sorted array from the largest deadline down to the smallest, pushes each
job on a max-heap ordered by profit, pops as many jobs as there are fresh
slots between consecutive deadlines, finally sorts the collected jobs by
ascending deadline and returns their ids.

Modelling choices (both C++ sorts use `std::sort` with the strict
comparison `a.dead < b.dead`, whose order on deadline ties is
unspecified; likewise `std::priority_queue` breaks profit ties in an
unspecified way):
* both sorts are embedded as the stable `List.insertionSort` over the
  non-strict relation `deadLE`, one legitimate refinement of the
  unspecified tie order;
* the heap is embedded as a list, `popMax` removing one maximal-profit
  element (the most recently pushed one on ties), again a refinement of
  the unspecified heap tie order;
* C++ `int` is embedded as `Int` (all values in the program are tiny, so
  no overflow reasoning is needed), `char` as `Char`.
-/

namespace greedy_algorithms

/-- The C++ record `struct Job` with fields `char id`, `int dead`, `int profit`. -/
structure Job where
  id : Char
  dead : Int
  profit : Int
deriving DecidableEq, Repr

/-- The heap comparator `bool jobComparator(Job const &a, Job const &b)`,
returning `a.profit < b.profit`. -/
def jobComparator (a b : Job) : Bool := a.profit < b.profit

/-- The comparison used by both `std::sort` calls (as a non-strict total
relation, see the modelling notes above). -/
def deadLE (a b : Job) : Prop := a.dead ≤ b.dead

instance : DecidableRel deadLE := fun a b => inferInstanceAs (Decidable (a.dead ≤ b.dead))

instance : IsTotal Job deadLE := ⟨fun a b => Int.le_total a.dead b.dead⟩

instance : IsTrans Job deadLE := ⟨fun _ _ _ h1 h2 => le_trans h1 h2⟩

instance : IsRefl Job deadLE := ⟨fun a => le_refl a.dead⟩

/-- The call `std::sort(arr.begin(), arr.end(), ...)` with the lambda comparing
`a.dead < b.dead`, embedded as a stable sort by ascending deadline. -/
def sortJobs (l : List Job) : List Job := List.insertionSort deadLE l

/-- The `slot_available` value computed for the job `j` when the part of the
deadline-sorted array strictly before `j` is `rest.reverse`:
`if (i == 0) slot_available = arr[i].dead; else slot_available = arr[i].dead - arr[i-1].dead;`
(`rest` is the earlier part of the sorted array, reversed, so its head is
`arr[i-1]`; `rest = []` is the case `i == 0`). -/
def freshSlots (j : Job) (rest : List Job) : Int :=
  match rest with
  | [] => j.dead
  | k :: _ => j.dead - k.dead

/-- `pq.top()` / `pq.pop()` of the profit-ordered max-heap: remove one
maximal-profit element from the list (ties go to the most recently pushed,
i.e. leftmost, element). Returns `none` exactly on the empty heap. -/
def popMax : List Job → Option (Job × List Job)
  | [] => none
  | j :: rest =>
    match popMax rest with
    | none => some (j, [])
    | some (m, rest2) => if jobComparator j m then some (m, j :: rest2) else some (j, rest)

/-- The inner `while (slot_available > 0 && pq.size() > 0)` loop: pop up to
`fuel` highest-profit jobs off the heap and append them to the result.
`fuel` is `slot_available.toNat` (the loop runs only while `slot_available > 0`). -/
def drain : Nat → List Job → List Job → List Job × List Job
  | 0, pq, res => (pq, res)
  | fuel + 1, pq, res =>
    match popMax pq with
    | none => (pq, res)
    | some (j, pq2) => drain fuel pq2 (res ++ [j])

/-- The outer `for (int i = N - 1; i >= 0; i--)` loop over the deadline-sorted
array, processed here as the reversed sorted list: push the current job,
then drain the fresh slots. Returns the final heap and the result list. -/
def runJobs : List Job → List Job → List Job → List Job × List Job
  | [], pq, res => (pq, res)
  | j :: rest, pq, res =>
    runJobs rest
      (drain (freshSlots j rest).toNat (j :: pq) res).1
      (drain (freshSlots j rest).toNat (j :: pq) res).2

/-- The whole of `getJobScheduling`, including its effect on the caller's
array: the first component is the caller's array after the call (the C++
code sorts it in place), the second is the returned vector of ids. -/
def getJobSchedulingFull (arr : List Job) : List Job × List Char :=
  let sorted := sortJobs arr
  let result := sortJobs (runJobs sorted.reverse [] []).2
  (sorted, result.map Job.id)

/-- The return value of `getJobScheduling`. -/
def getJobScheduling (arr : List Job) : List Char := (getJobSchedulingFull arr).2

/-- The selected jobs behind the returned ids: the result list of the main
loop, sorted by ascending deadline (the ids returned are exactly
`(selectedJobs arr).map Job.id`). -/
def selectedJobs (arr : List Job) : List Job :=
  sortJobs (runJobs (sortJobs arr).reverse [] []).2

/-- Number of jobs in `l` whose deadline is at most `t`. -/
def countLE (l : List Job) (t : Int) : Nat :=
  (l.filter (fun j => decide (j.dead ≤ t))).length

/-- Largest deadline occurring in `l` (`0` for the empty list). -/
def maxDeadline (l : List Job) : Int :=
  l.foldr (fun j m => max j.dead m) 0

/-- The sequence of `slot_available` values computed by the main loop, in
processing order: `slotCounts l` lists `freshSlots j rest` for each split
`l = done ++ j :: rest` (the loop runs on `l = sorted.reverse`). -/
def slotCounts : List Job → List Int
  | [] => []
  | j :: rest => freshSlots j rest :: slotCounts rest

/-- Consecutive deadline differences along a list, seeded with a previous
element: `deltas p (c :: rest) = (c.dead - p.dead) :: deltas c rest`. -/
def deltas : Job → List Job → List Int
  | _, [] => []
  | p, c :: rest => (c.dead - p.dead) :: deltas c rest

/-- The fresh-slot counts re-indexed in ascending (sorted) order: the first
job of the sorted list contributes its own deadline, every later job its
deadline minus the previous job's deadline. -/
def ascCounts : List Job → List Int
  | [] => []
  | j :: rest => j.dead :: deltas j rest

/-- Deadline of the head of the list (`0` for the empty list): the value
subtracted from the current deadline when computing fresh slots, the loop's
boundary between opened and not-yet-opened slots. -/
def bdry : List Job → Int
  | [] => 0
  | j :: _ => j.dead

/-- Deadline of the last element of the list, `0` if the list is empty. -/
def prevDead (l : List Job) : Int :=
  match l.getLast? with
  | none => 0
  | some p => p.dead

/-- The first test fixture of `tests()` in the source file. -/
def jobs1 : List Job :=
  [⟨'a', 2, 100⟩, ⟨'b', 1, 19⟩, ⟨'c', 2, 27⟩, ⟨'d', 1, 25⟩, ⟨'e', 3, 15⟩]

/-- The second test fixture of `tests()` in the source file. -/
def jobs2 : List Job :=
  [⟨'x', 1, 50⟩, ⟨'y', 2, 60⟩, ⟨'z', 2, 20⟩, ⟨'w', 3, 30⟩]

/-! ## Properties of the heap operations -/

theorem popMax_ne_none (a : Job) (l : List Job) : popMax (a :: l) ≠ none := by
  unfold popMax
  cases popMax l with
  | none => simp
  | some p =>
    obtain ⟨m, r2⟩ := p
    dsimp only
    split <;> simp

theorem popMax_perm : ∀ {l : List Job} {j : Job} {r : List Job},
    popMax l = some (j, r) → l.Perm (j :: r) := by
  intro l
  induction l with
  | nil => intro j r h; simp [popMax] at h
  | cons a t ih =>
    intro j r h
    unfold popMax at h
    cases ht : popMax t with
    | none =>
      rw [ht] at h
      simp only [Option.some.injEq, Prod.mk.injEq] at h
      obtain ⟨rfl, rfl⟩ := h
      have hte : t = [] := by
        cases t with
        | nil => rfl
        | cons x xs => exact absurd ht (popMax_ne_none x xs)
      subst hte
      exact List.Perm.refl _
    | some p =>
      obtain ⟨m, r2⟩ := p
      rw [ht] at h
      dsimp only at h
      split at h <;> simp only [Option.some.injEq, Prod.mk.injEq] at h <;>
        obtain ⟨rfl, rfl⟩ := h
      · exact ((ih ht).cons a).trans (List.Perm.swap _ _ _)
      · exact List.Perm.refl _

theorem popMax_le : ∀ {l : List Job} {j : Job} {r : List Job},
    popMax l = some (j, r) → ∀ k ∈ l, k.profit ≤ j.profit := by
  intro l
  induction l with
  | nil => intro j r h; simp [popMax] at h
  | cons a t ih =>
    intro j r h k hk
    unfold popMax at h
    cases ht : popMax t with
    | none =>
      rw [ht] at h
      simp only [Option.some.injEq, Prod.mk.injEq] at h
      obtain ⟨rfl, rfl⟩ := h
      have hte : t = [] := by
        cases t with
        | nil => rfl
        | cons x xs => exact absurd ht (popMax_ne_none x xs)
      subst hte
      rcases List.mem_singleton.mp hk with rfl
      exact le_refl _
    | some p =>
      obtain ⟨m, r2⟩ := p
      rw [ht] at h
      dsimp only at h
      by_cases hcomp : jobComparator a m = true
      · rw [if_pos hcomp] at h
        simp only [Option.some.injEq, Prod.mk.injEq] at h
        obtain ⟨rfl, rfl⟩ := h
        have hcomp' := of_decide_eq_true hcomp
        rcases List.mem_cons.mp hk with rfl | hk2
        · exact le_of_lt hcomp'
        · exact ih ht k hk2
      · rw [if_neg hcomp] at h
        simp only [Option.some.injEq, Prod.mk.injEq] at h
        obtain ⟨rfl, rfl⟩ := h
        have hcomp' := of_decide_eq_false (eq_false_of_ne_true hcomp)
        rcases List.mem_cons.mp hk with rfl | hk2
        · exact le_refl _
        · exact (ih ht k hk2).trans (not_lt.mp hcomp')

/-! ## Properties of the inner (draining) loop -/

theorem drain_spec : ∀ (fuel : Nat) (pq res : List Job),
    ∃ tail, (drain fuel pq res).2 = res ++ tail ∧ tail.length ≤ fuel ∧
      (∀ x ∈ tail, x ∈ pq) ∧ ∀ x ∈ (drain fuel pq res).1, x ∈ pq := by
  intro fuel
  induction fuel with
  | zero => intro pq res; exact ⟨[], by simp [drain]⟩
  | succ fuel ih =>
    intro pq res
    cases hp : popMax pq with
    | none =>
      refine ⟨[], ?_⟩
      simp [drain, hp]
    | some p =>
      obtain ⟨j, pq2⟩ := p
      have hperm := popMax_perm hp
      have hstep : drain (fuel + 1) pq res = drain fuel pq2 (res ++ [j]) := by
        simp [drain, hp]
      obtain ⟨tail, h1, h2, h3, h4⟩ := ih pq2 (res ++ [j])
      refine ⟨j :: tail, ?_, ?_, ?_, ?_⟩
      · rw [hstep, h1, List.append_assoc]
        rfl
      · simpa using Nat.succ_le_succ h2
      · intro x hx
        rcases List.mem_cons.mp hx with rfl | hx2
        · exact hperm.mem_iff.mpr (List.mem_cons_self _ _)
        · exact hperm.mem_iff.mpr (List.mem_cons_of_mem _ (h3 x hx2))
      · intro x hx
        rw [hstep] at hx
        exact hperm.mem_iff.mpr (List.mem_cons_of_mem _ (h4 x hx))

theorem drain_perm : ∀ (fuel : Nat) (pq res : List Job),
    ((drain fuel pq res).1 ++ (drain fuel pq res).2).Perm (pq ++ res) := by
  intro fuel
  induction fuel with
  | zero => intro pq res; exact List.Perm.refl _
  | succ fuel ih =>
    intro pq res
    cases hp : popMax pq with
    | none => simp [drain, hp]
    | some p =>
      obtain ⟨j, pq2⟩ := p
      have hstep : drain (fuel + 1) pq res = drain fuel pq2 (res ++ [j]) := by
        simp [drain, hp]
      rw [hstep]
      refine (ih pq2 (res ++ [j])).trans ?_
      have h1 : (pq2 ++ (res ++ [j])).Perm (pq2 ++ ([j] ++ res)) :=
        List.Perm.append_left pq2 List.perm_append_comm
      have h2 : (pq2 ++ ([j] ++ res)) = (pq2 ++ [j]) ++ res := by
        rw [List.append_assoc]
      have h3 : ((pq2 ++ [j]) ++ res).Perm ((j :: pq2) ++ res) :=
        List.Perm.append_right res List.perm_append_comm
      have h4 : ((j :: pq2) ++ res).Perm (pq ++ res) :=
        List.Perm.append_right res (popMax_perm hp).symm
      exact h1.trans (h2 ▸ h3.trans h4)

/-! ## Properties of the outer loop -/

theorem runJobs_perm : ∀ (l pq res : List Job),
    ((runJobs l pq res).1 ++ (runJobs l pq res).2).Perm (l ++ (pq ++ res)) := by
  intro l
  induction l with
  | nil => intro pq res; exact List.Perm.refl _
  | cons j rest ih =>
    intro pq res
    have hstep : runJobs (j :: rest) pq res =
        runJobs rest (drain (freshSlots j rest).toNat (j :: pq) res).1
          (drain (freshSlots j rest).toNat (j :: pq) res).2 := rfl
    rw [hstep]
    refine (ih _ _).trans ?_
    refine (List.Perm.append_left rest
      (drain_perm (freshSlots j rest).toNat (j :: pq) res)).trans ?_
    exact List.perm_middle

/-! ## Counting lemmas -/

theorem countLE_append (l1 l2 : List Job) (t : Int) :
    countLE (l1 ++ l2) t = countLE l1 t + countLE l2 t := by
  simp [countLE, List.filter_append]

theorem countLE_le_length (l : List Job) (t : Int) : countLE l t ≤ l.length :=
  List.length_filter_le _ _

theorem countLE_eq_zero {l : List Job} {t : Int} (h : ∀ x ∈ l, t < x.dead) :
    countLE l t = 0 := by
  simp only [countLE, List.length_eq_zero, List.filter_eq_nil_iff]
  intro x hx
  simpa using not_le.mpr (h x hx)

theorem countLE_perm {l1 l2 : List Job} (h : l1.Perm l2) (t : Int) :
    countLE l1 t = countLE l2 t :=
  (h.filter _).length_eq

theorem countLE_eq_length {l : List Job} {t : Int} (h : ∀ x ∈ l, x.dead ≤ t) :
    countLE l t = l.length := by
  simp only [countLE]
  rw [List.filter_eq_self.mpr]
  intro x hx
  simpa using h x hx

theorem countLE_cons (x : Job) (l : List Job) (t : Int) :
    countLE (x :: l) t = (if x.dead ≤ t then 1 else 0) + countLE l t := by
  simp only [countLE, List.filter_cons]
  split
  · next h =>
    rw [if_pos (of_decide_eq_true h)]
    simp [Nat.add_comm]
  · next h =>
    rw [if_neg (fun hc => h (decide_eq_true hc))]
    simp

theorem maxDeadline_nonneg (l : List Job) : 0 ≤ maxDeadline l := by
  induction l with
  | nil => exact le_refl 0
  | cons x xs ih => exact le_trans ih (le_max_right _ _)

theorem le_maxDeadline {l : List Job} : ∀ x ∈ l, x.dead ≤ maxDeadline l := by
  induction l with
  | nil => intro x hx; cases hx
  | cons y ys ih =>
    intro x hx
    rcases List.mem_cons.mp hx with rfl | hx2
    · exact le_max_left _ _
    · exact (ih x hx2).trans (le_max_right _ _)

/-! ## The slot-budget invariant of the main loop -/

theorem freshSlots_eq (j : Job) (rest : List Job) :
    freshSlots j rest = j.dead - bdry rest := by
  cases rest <;> simp [freshSlots, bdry]

/-- The central invariant: running the outer loop over a descending-deadline
list `l` of jobs with positive deadlines, starting from a heap whose jobs all
have deadlines at least the head deadline of `l` and a result list in which,
for every threshold `t`, at most `max 0 (t - bdry l)` jobs have deadline at
most `t`, yields a result list with at most `t` jobs of deadline at most `t`
for every `t ≥ 0`. -/
theorem runJobs_count : ∀ (l pq res : List Job),
    l.Pairwise (fun a b => b.dead ≤ a.dead) →
    (∀ j ∈ l, 1 ≤ j.dead) →
    (∀ j ∈ pq, bdry l ≤ j.dead) →
    (∀ t : Int, 0 ≤ t → (countLE res t : Int) ≤ max 0 (t - bdry l)) →
    ∀ t : Int, 0 ≤ t → (countLE (runJobs l pq res).2 t : Int) ≤ t := by
  intro l
  induction l with
  | nil =>
    intro pq res _ _ _ hres t ht
    have := hres t ht
    simp only [bdry, sub_zero] at this
    simpa [runJobs, max_eq_right ht] using this
  | cons j rest ih =>
    intro pq res hsort hpos hpq hres t ht
    have hstep : runJobs (j :: rest) pq res =
        runJobs rest (drain (freshSlots j rest).toNat (j :: pq) res).1
          (drain (freshSlots j rest).toNat (j :: pq) res).2 := rfl
    rw [hstep]
    have hpc := List.pairwise_cons.mp hsort
    have hjd : 1 ≤ j.dead := hpos j (List.mem_cons_self _ _)
    have hb_le : bdry rest ≤ j.dead := by
      cases rest with
      | nil => simpa [bdry] using le_trans zero_le_one hjd
      | cons k ks => exact hpc.1 k (List.mem_cons_self _ _)
    have hb_nonneg : 0 ≤ bdry rest := by
      cases rest with
      | nil => exact le_refl 0
      | cons k ks =>
        exact le_trans zero_le_one (hpos k (List.mem_cons_of_mem _ (List.mem_cons_self _ _)))
    have hd : ((freshSlots j rest).toNat : Int) = j.dead - bdry rest := by
      rw [freshSlots_eq]
      exact Int.toNat_of_nonneg (by omega)
    obtain ⟨tail, htail_eq, htail_len, htail_mem, hD1_mem⟩ :=
      drain_spec (freshSlots j rest).toNat (j :: pq) res
    have hheap : ∀ x ∈ j :: pq, j.dead ≤ x.dead := by
      intro x hx
      rcases List.mem_cons.mp hx with rfl | hx2
      · exact le_refl _
      · simpa [bdry] using hpq x hx2
    refine ih _ _ hpc.2 (fun k hk => hpos k (List.mem_cons_of_mem _ hk)) ?_ ?_ t ht
    · intro x hx
      rcases List.mem_cons.mp (hD1_mem x hx) with rfl | hx2
      · exact hb_le
      · exact hb_le.trans (by simpa [bdry] using hpq x hx2)
    · intro u hu
      rw [htail_eq, countLE_append]
      by_cases hc : u < j.dead
      · have h0 : countLE tail u = 0 :=
          countLE_eq_zero (fun x hx => lt_of_lt_of_le hc (hheap x (htail_mem x hx)))
        have h1 := hres u hu
        have h2 : max 0 (u - bdry (j :: rest)) = 0 := by
          simp only [bdry]
          omega
        have h3 := le_max_left 0 (u - bdry rest)
        omega
      · have h1 := hres u hu
        have h2 : max 0 (u - bdry (j :: rest)) = u - j.dead := by
          simp only [bdry]
          omega
        have h3 : (countLE tail u : Int) ≤ ((freshSlots j rest).toNat : Int) := by
          exact_mod_cast le_trans (countLE_le_length tail u) htail_len
        have h4 : max 0 (u - bdry rest) = u - bdry rest := by omega
        omega

/-! ## Assembly lemmas about the whole scheduler -/

theorem sortJobs_sorted (l : List Job) : (sortJobs l).Sorted deadLE :=
  List.sorted_insertionSort deadLE l

theorem sortJobs_perm (l : List Job) : (sortJobs l).Perm l :=
  List.perm_insertionSort deadLE l

theorem resultJobs_count (arr : List Job) (hpos : ∀ j ∈ arr, 1 ≤ j.dead) :
    ∀ t : Int, 0 ≤ t →
      (countLE (runJobs (sortJobs arr).reverse [] []).2 t : Int) ≤ t := by
  refine runJobs_count (sortJobs arr).reverse [] [] ?_ ?_ ?_ ?_
  · exact List.pairwise_reverse.mpr ((sortJobs_sorted arr).imp (fun h => h))
  · intro j hj
    exact hpos j ((sortJobs_perm arr).mem_iff.mp (List.mem_reverse.mp hj))
  · intro j hj
    cases hj
  · intro t ht
    have : countLE [] t = 0 := rfl
    rw [this]
    exact le_max_left 0 _

theorem resultJobs_subperm (arr : List Job) :
    (runJobs (sortJobs arr).reverse [] []).2.Subperm arr := by
  have hperm := runJobs_perm (sortJobs arr).reverse [] []
  have hperm2 : ((runJobs (sortJobs arr).reverse [] []).1 ++
      (runJobs (sortJobs arr).reverse [] []).2).Perm (sortJobs arr).reverse := by
    simpa using hperm
  have hsub : (runJobs (sortJobs arr).reverse [] []).2.Sublist
      ((runJobs (sortJobs arr).reverse [] []).1 ++ (runJobs (sortJobs arr).reverse [] []).2) :=
    List.sublist_append_right _ _
  refine (hsub.subperm.trans hperm2.subperm).trans ?_
  exact (((sortJobs arr).reverse_perm).trans (sortJobs_perm arr)).subperm

theorem selectedJobs_subperm (arr : List Job) : (selectedJobs arr).Subperm arr := by
  have h1 : (selectedJobs arr).Perm (runJobs (sortJobs arr).reverse [] []).2 := by
    unfold selectedJobs
    exact sortJobs_perm _
  exact h1.subperm.trans (resultJobs_subperm arr)

theorem selectedJobs_sorted (arr : List Job) : (selectedJobs arr).Sorted deadLE := by
  unfold selectedJobs
  exact sortJobs_sorted _

theorem getJobScheduling_eq_map (arr : List Job) :
    getJobScheduling arr = (selectedJobs arr).map Job.id := rfl

/-- On a deadline-sorted list, at least `i + 1` jobs have deadline at most the
deadline of the job at position `i`. -/
theorem sorted_count_ge : ∀ (l : List Job), l.Sorted deadLE →
    ∀ (i : Nat) (h : i < l.length), i + 1 ≤ countLE l (l.get ⟨i, h⟩).dead := by
  intro l
  induction l with
  | nil => intro _ i h; cases h
  | cons x xs ih =>
    intro hsort i h
    have hpc := List.sorted_cons.mp hsort
    cases i with
    | zero =>
      have hget0 : ((x :: xs).get ⟨0, h⟩) = x := rfl
      rw [hget0, countLE_cons, if_pos (le_refl _)]
      omega
    | succ k =>
      have hk : k < xs.length := Nat.lt_of_succ_lt_succ h
      have hget : ((x :: xs).get ⟨k + 1, h⟩) = xs.get ⟨k, hk⟩ := rfl
      rw [hget, countLE_cons,
        if_pos (show x.dead ≤ (xs.get ⟨k, hk⟩).dead from hpc.1 _ (xs.get_mem _ _))]
      have := ih hpc.2 k hk
      omega

/-! ## Re-indexing the fresh-slot counts in sorted order -/

theorem deltas_append_singleton : ∀ (xs : List Job) (p j : Job),
    deltas p (xs ++ [j]) = deltas p xs ++ [j.dead - ((xs.getLast?).getD p).dead] := by
  intro xs
  induction xs with
  | nil => intro p j; simp [deltas]
  | cons x xs ih =>
    intro p j
    have hstep : deltas p ((x :: xs) ++ [j]) = (x.dead - p.dead) :: deltas x (xs ++ [j]) := rfl
    rw [hstep, ih x j]
    cases xs with
    | nil => simp [deltas]
    | cons y ys =>
      obtain ⟨z, hz⟩ : ∃ z, (y :: ys).getLast? = some z :=
        ⟨_, List.getLast?_eq_getLast (y :: ys) (by simp)⟩
      simp [deltas, List.getLast?_cons_cons, hz]

theorem ascCounts_append_singleton : ∀ (m : List Job) (j : Job),
    ascCounts (m ++ [j]) = ascCounts m ++ [j.dead - prevDead m] := by
  intro m j
  cases m with
  | nil => simp [ascCounts, prevDead, deltas]
  | cons x xs =>
    have hstep : ascCounts ((x :: xs) ++ [j]) = x.dead :: deltas x (xs ++ [j]) := rfl
    rw [hstep, deltas_append_singleton xs x j]
    cases xs with
    | nil => simp [ascCounts, prevDead, deltas]
    | cons y ys =>
      obtain ⟨z, hz⟩ : ∃ z, (y :: ys).getLast? = some z :=
        ⟨_, List.getLast?_eq_getLast (y :: ys) (by simp)⟩
      simp [ascCounts, prevDead, deltas, List.getLast?_cons_cons, hz]

theorem slotCounts_eq_ascCounts : ∀ l : List Job,
    slotCounts l = (ascCounts l.reverse).reverse := by
  intro l
  induction l with
  | nil => rfl
  | cons j rest ih =>
    have hstep : slotCounts (j :: rest) = freshSlots j rest :: slotCounts rest := rfl
    rw [hstep, ih]
    have hrev : (j :: rest).reverse = rest.reverse ++ [j] := by simp
    rw [hrev, ascCounts_append_singleton, List.reverse_append]
    have hfs : freshSlots j rest = j.dead - prevDead rest.reverse := by
      cases rest with
      | nil => simp [freshSlots, prevDead]
      | cons k ks =>
        simp only [freshSlots, prevDead, List.getLast?_reverse]
        rfl
    rw [hfs]
    rfl

theorem drain_one (pq res : List Job) : drain 1 pq res =
    match popMax pq with
    | none => (pq, res)
    | some p => (p.2, res ++ [p.1]) := by
  cases hp : popMax pq with
  | none =>
    show (match popMax pq with
      | none => (pq, res)
      | some (j, pq2) => drain 0 pq2 (res ++ [j])) = _
    rw [hp]
  | some p =>
    obtain ⟨j0, pq0⟩ := p
    show (match popMax pq with
      | none => (pq, res)
      | some (j, pq2) => drain 0 pq2 (res ++ [j])) = _
    rw [hp]
    rfl

/-! ## Claim theorems -/

/-- C1 (counterexample): on the input with deadlines 1 and 3 the job with the
largest deadline (3, last in sorted order) is processed first and its
fresh-slot count is `3 - 1 = 2`, not its own deadline value 3 as the claim
states. -/
theorem slotCount_largest_deadline_cex :
    (slotCounts ((sortJobs [⟨'a', 1, 10⟩, ⟨'b', 3, 5⟩]).reverse)).head? = some 2 ∧
    ((sortJobs [⟨'a', 1, 10⟩, ⟨'b', 3, 5⟩]).getLast?.map Job.dead) = some 3 ∧
    (2 : Int) ≠ 3 := by decide

/-- C1 (amended): the fresh-slot counts computed while processing jobs in
descending deadline order are, re-read in ascending sorted order, the first
job's own deadline followed by each later job's deadline minus the previous
job's deadline in sorted order (it is the job with the smallest deadline,
processed last, that receives its own deadline value). -/
theorem slotCounts_characterization (arr : List Job) :
    slotCounts (sortJobs arr).reverse = (ascCounts (sortJobs arr)).reverse := by
  rw [slotCounts_eq_ascCounts, List.reverse_reverse]

/-- C2 (counterexample): the scheduler sorts the caller's array in place; on
an input that is not already deadline-sorted, the caller's array differs from
the input after the call. -/
theorem getJobScheduling_mutates_caller_array :
    (getJobSchedulingFull [⟨'b', 2, 5⟩, ⟨'a', 1, 7⟩]).1 ≠ [⟨'b', 2, 5⟩, ⟨'a', 1, 7⟩] := by
  decide

/-- C2 (amended): the only mutation of caller-owned data is the in-place
deadline sort: after the call the caller's array is a permutation of the
input, sorted by ascending deadline; the returned id sequence is freshly
allocated. -/
theorem getJobSchedulingFull_inplace_sort (arr : List Job) :
    ((getJobSchedulingFull arr).1).Perm arr ∧
    ((getJobSchedulingFull arr).1).Sorted deadLE :=
  ⟨sortJobs_perm arr, sortJobs_sorted arr⟩

/-- C3: for every in-contract input (all deadlines at least 1), the job at
0-based position `i` of the returned sequence, i.e. 1-indexed slot `i + 1`,
has deadline at least `i + 1` (feasibility invariant). -/
theorem getJobScheduling_feasible (arr : List Job) (hpos : ∀ j ∈ arr, 1 ≤ j.dead)
    (i : Nat) (hi : i < (selectedJobs arr).length) :
    ((i : Int) + 1) ≤ ((selectedJobs arr).get ⟨i, hi⟩).dead := by
  have hmem : (selectedJobs arr).get ⟨i, hi⟩ ∈ selectedJobs arr :=
    (selectedJobs arr).get_mem _ _
  have hmem_arr := (selectedJobs_subperm arr).subset hmem
  have ht1 : 1 ≤ ((selectedJobs arr).get ⟨i, hi⟩).dead := hpos _ hmem_arr
  have hge := sorted_count_ge _ (selectedJobs_sorted arr) i hi
  have heq := countLE_perm
    (show (selectedJobs arr).Perm (runJobs (sortJobs arr).reverse [] []).2 from
      sortJobs_perm _)
    (((selectedJobs arr).get ⟨i, hi⟩).dead)
  have hle := resultJobs_count arr hpos (((selectedJobs arr).get ⟨i, hi⟩).dead) (by omega)
  omega

/-- C3 (witness): instantiation at the second repository test fixture, slot 2. -/
theorem getJobScheduling_feasible_witness :
    ((1 : Int) + 1) ≤ ((selectedJobs jobs2).get ⟨1, by decide⟩).dead :=
  getJobScheduling_feasible jobs2 (by decide) 1 (by decide)

/-- C4: for every in-contract input (all deadlines at least 1), the returned
sequence is no longer than the input and no longer than the maximum deadline
(so the `1..max deadline` slots suffice, one job per slot). -/
theorem getJobScheduling_length_bounds (arr : List Job)
    (hpos : ∀ j ∈ arr, 1 ≤ j.dead) :
    (selectedJobs arr).length ≤ arr.length ∧
    ((selectedJobs arr).length : Int) ≤ maxDeadline arr := by
  constructor
  · exact (selectedJobs_subperm arr).length_le
  · have hmem : ∀ x ∈ (runJobs (sortJobs arr).reverse [] []).2,
        x.dead ≤ maxDeadline arr := by
      intro x hx
      exact le_maxDeadline x ((resultJobs_subperm arr).subset hx)
    have hfull : countLE (runJobs (sortJobs arr).reverse [] []).2 (maxDeadline arr)
        = (runJobs (sortJobs arr).reverse [] []).2.length := countLE_eq_length hmem
    have hle := resultJobs_count arr hpos (maxDeadline arr) (maxDeadline_nonneg arr)
    have hlen : (selectedJobs arr).length
        = (runJobs (sortJobs arr).reverse [] []).2.length := by
      unfold selectedJobs
      exact (sortJobs_perm _).length_eq
    omega

/-- C4 (witness): instantiation at the second repository test fixture. -/
theorem getJobScheduling_length_bounds_witness :
    (selectedJobs jobs2).length ≤ jobs2.length ∧
    ((selectedJobs jobs2).length : Int) ≤ maxDeadline jobs2 :=
  getJobScheduling_length_bounds jobs2 (by decide)

/-- C5: on the second repository test fixture the scheduler returns exactly
the ids `x, y, w` (ascending deadlines 1, 2, 3) with total selected profit
`50 + 60 + 30 = 140`. -/
theorem getJobScheduling_scenarioB :
    getJobScheduling jobs2 = ['x', 'y', 'w'] ∧
    ((selectedJobs jobs2).map Job.profit).sum = 140 := by decide

/-- C6: on the first repository test fixture the scheduler selects exactly
the jobs `a`, `c`, `e`, returned in ascending deadline order (this embedding
resolves the deadline tie between `a` and `c` as `a, c, e`, matching the
repository's own test assertions), with total selected profit
`100 + 27 + 15 = 142`. -/
theorem getJobScheduling_scenarioA :
    getJobScheduling jobs1 = ['a', 'c', 'e'] ∧
    ((selectedJobs jobs1).map Job.profit).sum = 142 := by decide

/-- C7: on any input of three jobs all with deadline 1, exactly one id is
returned, that of a maximum-profit job among the three; the two iterations
with zero slot-delta allocate nothing and cause no error. -/
theorem getJobScheduling_all_deadline_one (a b c : Job)
    (ha : a.dead = 1) (hb : b.dead = 1) (hc : c.dead = 1) :
    ∃ m, m ∈ [a, b, c] ∧ getJobScheduling [a, b, c] = [m.id] ∧
      ∀ k ∈ [a, b, c], k.profit ≤ m.profit := by
  have hsorted : sortJobs [a, b, c] = [a, b, c] := by
    refine List.Sorted.insertionSort_eq ?_
    simp [List.sorted_cons, deadLE, ha, hb, hc]
  obtain ⟨m, pq2, hm⟩ : ∃ m pq2, popMax [a, b, c] = some (m, pq2) := by
    cases hp : popMax [a, b, c] with
    | none => exact absurd hp (popMax_ne_none _ _)
    | some p =>
      obtain ⟨j0, pq0⟩ := p
      exact ⟨j0, pq0, rfl⟩
  have step1 : runJobs [c, b, a] [] [] = runJobs [b, a] [c] [] := by
    show runJobs [b, a] (drain (c.dead - b.dead).toNat [c] []).1
        (drain (c.dead - b.dead).toNat [c] []).2 = runJobs [b, a] [c] []
    rw [hb, hc]
    rfl
  have step2 : runJobs [b, a] [c] [] = runJobs [a] [b, c] [] := by
    show runJobs [a] (drain (b.dead - a.dead).toNat [b, c] []).1
        (drain (b.dead - a.dead).toNat [b, c] []).2 = runJobs [a] [b, c] []
    rw [ha, hb]
    rfl
  have step3 : runJobs [a] [b, c] [] = (pq2, [m]) := by
    show runJobs [] (drain a.dead.toNat [a, b, c] []).1
        (drain a.dead.toNat [a, b, c] []).2 = (pq2, [m])
    rw [ha]
    have h1nat : ((1 : Int)).toNat = 1 := rfl
    rw [h1nat, drain_one, hm]
    rfl
  have hgoal : getJobScheduling [a, b, c] = [m.id] := by
    show (sortJobs (runJobs ((sortJobs [a, b, c]).reverse) [] []).2).map Job.id = [m.id]
    rw [hsorted]
    have hrev : ([a, b, c] : List Job).reverse = [c, b, a] := rfl
    rw [hrev, step1, step2, step3]
    rfl
  exact ⟨m, (popMax_perm hm).mem_iff.mpr (List.mem_cons_self _ _), hgoal, popMax_le hm⟩

/-- C7 (witness): instantiation at three concrete deadline-1 jobs. -/
theorem getJobScheduling_all_deadline_one_witness :
    ∃ m, m ∈ [(⟨'p', 1, 3⟩ : Job), ⟨'q', 1, 9⟩, ⟨'r', 1, 5⟩] ∧
      getJobScheduling [⟨'p', 1, 3⟩, ⟨'q', 1, 9⟩, ⟨'r', 1, 5⟩] = [m.id] ∧
      ∀ k ∈ [(⟨'p', 1, 3⟩ : Job), ⟨'q', 1, 9⟩, ⟨'r', 1, 5⟩], k.profit ≤ m.profit :=
  getJobScheduling_all_deadline_one _ _ _ rfl rfl rfl

/-- C8: the returned ids are the selected jobs in ascending deadline order:
whenever one selected job precedes another in the output, its deadline is at
most the other's. -/
theorem getJobScheduling_output_ascending (arr : List Job) :
    getJobScheduling arr = (selectedJobs arr).map Job.id ∧
    (selectedJobs arr).Sorted deadLE :=
  ⟨rfl, selectedJobs_sorted arr⟩

/-- C9: the empty input yields the empty output. -/
theorem getJobScheduling_empty : getJobScheduling [] = [] := rfl

/-- C10: the output arises from an injective selection of input jobs: the
returned ids are the image of a list of jobs that is a sub-permutation of
the input (each output position a distinct input job, every id from the
input, no input job used twice). -/
theorem getJobScheduling_selection (arr : List Job) :
    getJobScheduling arr = (selectedJobs arr).map Job.id ∧
    (selectedJobs arr).Subperm arr :=
  ⟨rfl, selectedJobs_subperm arr⟩

end greedy_algorithms
